import Mathlib

/-!
Verification of the sensitivity-matrix construction and Fisher-criterion
engine of `FisInMa/solving/solve_fsm.py`.

Numbers are modelled as rationals.  Where a floating point operation can
produce a non-finite value (`inf`/`nan`), values are modelled as `Option ℚ`
with `none` standing for a non-finite float; the only such operation in the
code under verification is the division by an observable value in the
relative-sensitivity normalization.  The numerical integrator
(`scipy.integrate.solve_ivp`) is opaque: it enters the embedding as a
parameter mapping each combination to the matrix `res.y` of its output.
-/

namespace FisInMa

/-- Row-major reshape of a flat vector into a matrix with the given number of
rows and columns, following the semantics of `numpy.reshape`. -/
def reshape2 (rows cols : ℕ) (xs : List ℚ) : List (List ℚ) :=
  (List.range rows).map (fun i => (xs.drop (i * cols)).take cols)

/-- Matrix product of two rational matrices given as lists of rows, as
computed by `numpy.dot` on 2-D arrays. -/
def matMul (A B : List (List ℚ)) : List (List ℚ) :=
  A.map (fun r => (List.range (B.headD []).length).map (fun j =>
    ((List.range r.length).map (fun k => r.getD k 0 * (B.getD k []).getD j 0)).sum))

/-- Elementwise sum of two rational matrices of equal shape, as computed by
`+` on numpy arrays. -/
def matAdd (A B : List (List ℚ)) : List (List ℚ) :=
  List.zipWith (fun r s => List.zipWith (· + ·) r s) A B

/-- The type of the user supplied ODE right-hand side
`f(t, x, inputs, parameters, ode_args)`. -/
abbrev OdeFun := ℚ → List ℚ → List ℚ → List ℚ → List ℚ → List ℚ

/-- The type of the user supplied Jacobians `dfdx` and `dfdp`. -/
abbrev OdeJac := ℚ → List ℚ → List ℚ → List ℚ → List ℚ → List (List ℚ)

/-- Shallow embedding of `ode_rhs` from `solve_fsm.py`: split the augmented
state vector `x` into the state block (first `n_x` entries) and the row-major
sensitivity block (next `n_x * n_p` entries, any further entries are the
discarded third block of `np.split`), evaluate the user functions at the
state block, and return the concatenation of `f`'s output with the row-major
flattening of `(df/dx)·s + df/dp`. -/
def ode_rhs (t : ℚ) (x : List ℚ) (ode_fun : OdeFun) (ode_dfdx ode_dfdp : OdeJac)
    (inputs parameters ode_args : List ℚ) (n_x n_p : ℕ) : List ℚ :=
  let x_fun := x.take n_x
  let s := reshape2 n_x n_p ((x.drop n_x).take (n_x * n_p))
  let dx_f := ode_fun t x_fun inputs parameters ode_args
  let dfdx := ode_dfdx t x_fun inputs parameters ode_args
  let dfdp := ode_dfdp t x_fun inputs parameters ode_args
  let ds := matAdd (matMul dfdx s) dfdp
  dx_f ++ ds.flatten

/-- `np.unique` with `return_counts=True`: the sorted distinct values of `t`
together with the number of occurrences of each value in `t`. -/
def npUnique (t : List ℚ) : List ℚ × List ℕ :=
  let u := (List.insertionSort (· ≤ ·) t).dedup
  (u, u.map (fun v => t.count v))

/-- `np.repeat` along an axis: element `k` of `xs` is repeated `counts k`
times, in order. -/
def npRepeat {α : Type} (xs : List α) (counts : List ℕ) : List α :=
  ((xs.zip counts).map (fun p => List.replicate p.2 p.1)).flatten

/-- All index tuples for the given list of dimension lengths, in row-major
(lexicographic) order, as enumerated by `itertools.product` of ranges. -/
def multiRange : List ℕ → List (List ℕ)
  | [] => [[]]
  | n :: rest => (List.range n).flatMap (fun i => (multiRange rest).map (fun is => i :: is))

/-- `np.eye n`: the identity matrix of size `n` as a list of rows. -/
def npEye (n : ℕ) : List (List ℚ) :=
  (List.range n).map (fun i => (List.range n).map (fun j => if i = j then (1 : ℚ) else 0))

/-- Float values: `some q` is a finite float of value `q`, `none` is a
non-finite float (`inf` or `nan`).  The only operation of the code under
verification that produces a non-finite value from finite operands is
division by zero. -/
abbrev FVal := Option ℚ

/-- Multiplication of a float value by a finite scalar. -/
def fmul (v : FVal) (p : ℚ) : FVal := v.map (fun q => q * p)

/-- Division of a float value by a finite scalar: division by zero yields a
non-finite value (`inf` or `nan` in numpy), any other division is exact. -/
def fdiv (v : FVal) (o : ℚ) : FVal :=
  if o = 0 then none else v.map (fun q => q / o)

/-- The per-combination sensitivity block of `get_S_matrix`, as the function
sending (parameter index `ip`, state index `ix`, time index `j`) to the value
`s[ip, ix, j]` written into the `S` tensor for one combination.  `resy` is
the matrix `res.y` returned by the integrator for this combination, with one
row per component of the augmented state and one column per entry of `t_red`.
The degenerate branch (all of `t_red` equal to the initial time) yields the
zero block; otherwise the sensitivity rows of `res.y` are reshaped and
axis-swapped so that `s[ip, ix]` is row `n_x0 + ix * n_p + ip`, then each
column is repeated according to the multiplicity of its time value.  For
relative sensitivities each parameter slice is scaled by its parameter value
and divided elementwise by the time-expanded observable trajectory. -/
def combBlock (nx npar : ℕ) (parameters : List ℚ) (t0 : ℚ) (t : List ℚ)
    (resy : List (List ℚ)) (rel : Bool) : ℕ → ℕ → ℕ → FVal :=
  let t_red := (npUnique t).1
  let counts := (npUnique t).2
  let sAbs : ℕ → ℕ → ℕ → FVal :=
    if t_red.all (fun v => v == t0) then
      fun _ _ _ => some 0
    else
      fun ip ix j => some ((npRepeat (resy.getD (nx + ix * npar + ip) []) counts).getD j 0)
  if rel then
    fun ip ix j =>
      fdiv (fmul (sAbs ip ix j) (parameters.getD ip 0))
        ((npRepeat (resy.getD ix []) counts).getD j 0)
  else sAbs

/-- The fields of `FisherModelParametrized` read by `get_S_matrix`.
`timesShared` models the shared 1-D vector `fsmp.times` used when
`identicalTimes` is true; `timesPer` models the per-combination time array
`fsmp.times[index]` used when it is false; `nTimes` models
`fsmp.times.shape[-1]`, the constant length of the last axis. -/
structure Design where
  parameters : List ℚ
  ode_t0 : List ℚ
  ode_x0 : List (List ℚ)
  inputs : List (List ℚ)
  timesShared : List ℚ
  timesPer : List ℕ → List ℚ
  identicalTimes : Bool
  nTimes : ℕ

/-- Number of parameters `n_p = len(fsmp.parameters)`. -/
def n_p (d : Design) : ℕ := d.parameters.length

/-- Number of initial times `n_t0 = len(fsmp.ode_t0)`. -/
def n_t0 (d : Design) : ℕ := d.ode_t0.length

/-- Number of candidate initial states `N_x0 = len(fsmp.ode_x0)`. -/
def N_x0 (d : Design) : ℕ := d.ode_x0.length

/-- State dimension `n_x0 = len(fsmp.ode_x0[0])`. -/
def n_x0 (d : Design) : ℕ := (d.ode_x0.getD 0 []).length

/-- Lengths of the individual input-candidate sequences. -/
def inputsShape (d : Design) : List ℕ := d.inputs.map List.length

/-- The opaque numerical integrator: maps a combination (initial-state index,
initial-time index, input index tuple) to the matrix `res.y` of its output. -/
abbrev Solver := ℕ → ℕ → List ℕ → List (List ℚ)

/-- The time vector used for a combination with the given input index tuple. -/
def designT (d : Design) (index : List ℕ) : List ℚ :=
  if d.identicalTimes then d.timesShared else d.timesPer index

/-- The combination enumeration of `get_S_matrix`:
`itertools.product(enumerate(ode_x0), enumerate(ode_t0), product(ranges))`,
listed as (initial-state index, initial-time index, input index tuple). -/
def combos (d : Design) : List (ℕ × ℕ × List ℕ) :=
  (List.range (N_x0 d)).flatMap (fun i_x0 =>
    (List.range (n_t0 d)).flatMap (fun i_t0 =>
      (multiRange (inputsShape d)).map (fun index => (i_x0, i_t0, index))))

/-- The tensor-slice addresses written by the loop, in loop order: combination
`(i_x0, i_t0, index)` writes the slice addressed by `(i_t0, i_x0, index)`. -/
def writeAddrs (d : Design) : List (ℕ × ℕ × List ℕ) :=
  (combos d).map (fun c => (c.2.1, c.1, c.2.2))

/-- The zero-initialized sensitivity tensor `np.zeros(...)`, as a total map
from full multi-indices `ip :: i_t0 :: i_x0 :: i_xdim :: (index ++ [i_time])`
to values. -/
def zeroTensor : List ℕ → FVal := fun _ => some 0

/-- One numpy slice assignment
`S[(slice(None), i_t0, i_x0, slice(None)) + index] = s`: full indices whose
initial-time, initial-state and input coordinates match the written slice are
remapped to the block, all other entries are left unchanged. -/
def sliceWrite (nInputs : ℕ) (T : List ℕ → FVal) (i_t0 i_x0 : ℕ)
    (index : List ℕ) (block : ℕ → ℕ → ℕ → FVal) : List ℕ → FVal :=
  fun idx =>
    match idx with
    | ip :: it :: ix :: ixd :: rest =>
      if it = i_t0 ∧ ix = i_x0 ∧ rest.take nInputs = index ∧ rest.length = nInputs + 1 then
        block ip ixd (rest.getD nInputs 0)
      else T idx
    | _ => T idx

/-- The fully populated sensitivity tensor: the slice writes of all
combinations folded over the zero tensor in loop order. -/
def getS_tensor (d : Design) (solver : Solver) (rel : Bool) : List ℕ → FVal :=
  (combos d).foldl
    (fun T c => sliceWrite d.inputs.length T c.2.1 c.1 c.2.2
      (combBlock (n_x0 d) (n_p d) d.parameters (d.ode_t0.getD c.2.1 0) (designT d c.2.2)
        (solver c.1 c.2.1 c.2.2) rel))
    zeroTensor

/-- The dimension list of the allocated tensor after the parameter axis:
`(n_t0, N_x0, n_x0, |inputs[0]|, ..., |inputs[k]|, n_times)`. -/
def dims (d : Design) : List ℕ :=
  n_t0 d :: N_x0 d :: n_x0 d :: (inputsShape d ++ [d.nTimes])

/-- The number of columns `S.shape[1]` of the flattened sensitivity matrix. -/
def S_width (d : Design) : ℕ := (dims d).prod

/-- The flattened sensitivity matrix `S.reshape((n_p, -1))`: one row per
parameter, the remaining axes collapsed in row-major order. -/
def S_flat (d : Design) (solver : Solver) (rel : Bool) : List (List FVal) :=
  (List.range (n_p d)).map (fun ip =>
    (multiRange (dims d)).map (fun rest => getS_tensor d solver rel (ip :: rest)))

/-- The covariance matrix returned by `get_S_matrix`: `np.eye(S.shape[1])`. -/
def getC (d : Design) : List (List ℚ) := npEye (S_width d)

/-- One per-combination solution record (`FisherResultSingle`). -/
structure FisherResultSingle where
  ode_x0 : List ℚ
  ode_t0 : ℚ
  times : List ℚ
  inputs : List ℚ
  parameters : List ℚ
  resy : List (List ℚ)

/-- The solution records appended by the loop, one per combination, in loop
order. -/
def getSolutions (d : Design) (solver : Solver) : List FisherResultSingle :=
  (combos d).map (fun c =>
    { ode_x0 := d.ode_x0.getD c.1 []
      ode_t0 := d.ode_t0.getD c.2.1 0
      times := designT d c.2.2
      inputs := (d.inputs.zip c.2.2).map (fun p => p.1.getD p.2 0)
      parameters := d.parameters
      resy := solver c.1 c.2.1 c.2.2 })

/-- The triple returned by `get_S_matrix`. -/
def get_S_matrix (d : Design) (solver : Solver) (rel : Bool) :
    List (List FVal) × List (List ℚ) × List FisherResultSingle :=
  (S_flat d solver rel, getC d, getSolutions d solver)

/-- The covariance selection of `calculate_fisher_criterion`: the identity of
size `S.shape[1]` is forced whenever the covariance flag is false, otherwise
the matrix coming from the assembler is kept. -/
def selectC (covar : Bool) (w : ℕ) (C0 : List (List ℚ)) : List (List ℚ) :=
  if covar = false then npEye w else C0

/-- The result object built by `calculate_fisher_criterion`. -/
structure FisherResults where
  criterion : ℚ
  S : List (List FVal)
  C : List (List ℚ)
  individual_results : List FisherResultSingle
  relative_sensitivities : Bool

/-- Shallow embedding of `calculate_fisher_criterion`: run the assembler,
select the covariance matrix, evaluate the pluggable criterion, and bundle
the result. -/
def calculate_fisher_criterion (d : Design) (solver : Solver)
    (criterion : List (List FVal) → List (List ℚ) → ℚ) (covar rel : Bool) :
    FisherResults :=
  let SCsol := get_S_matrix d solver rel
  let C := selectC covar (S_width d) SCsol.2.1
  { criterion := criterion SCsol.1 C
    S := SCsol.1
    C := C
    individual_results := SCsol.2.2
    relative_sensitivities := rel }

/-- The Fisher information matrix `F = S · C · Sᵀ` computed by all three
criterion functions. -/
def fisherF {p m : ℕ} (S : Matrix (Fin p) (Fin m) ℚ)
    (C : Matrix (Fin m) (Fin m) ℚ) : Matrix (Fin p) (Fin p) ℚ :=
  S * C * S.transpose

/-- `fisher_determinant`: the D-optimality criterion `det(F)`. -/
def fisher_determinant {p m : ℕ} (S : Matrix (Fin p) (Fin m) ℚ)
    (C : Matrix (Fin m) (Fin m) ℚ) : ℚ :=
  (fisherF S C).det

/-- The multiset of eigenvalues of a rational matrix, with algebraic
multiplicity: the roots of its characteristic polynomial over `ℂ`, which is
what `np.linalg.eigvals` computes numerically. -/
noncomputable def eigvals {p : ℕ} (M : Matrix (Fin p) (Fin p) ℚ) : Multiset ℂ :=
  ((M.map (algebraMap ℚ ℂ)).charpoly).roots

/-- `fisher_sumeigenval`: the A-optimality criterion, the sum of the
eigenvalues of `F`. -/
noncomputable def fisher_sumeigenval {p m : ℕ} (S : Matrix (Fin p) (Fin m) ℚ)
    (C : Matrix (Fin m) (Fin m) ℚ) : ℂ :=
  (eigvals (fisherF S C)).sum

/-- numpy's comparison of complex numbers: lexicographic on the real part,
then the imaginary part; `cmin` returns the smaller of its two arguments. -/
noncomputable def cmin (a b : ℂ) : ℂ :=
  @ite _ (a.re < b.re ∨ (a.re = b.re ∧ a.im ≤ b.im)) (Classical.propDecidable _) a b

/-- `np.min` over a multiset of complex values (numpy's lexicographic
comparison); the value on the empty multiset is arbitrary. -/
noncomputable def npMinC (s : Multiset ℂ) : ℂ :=
  match s.toList with
  | [] => 0
  | a :: rest => rest.foldl cmin a

/-- `fisher_mineigenval`: the E-optimality criterion, the minimum of the
eigenvalues of `F` under numpy's comparison. -/
noncomputable def fisher_mineigenval {p m : ℕ} (S : Matrix (Fin p) (Fin m) ℚ)
    (C : Matrix (Fin m) (Fin m) ℚ) : ℂ :=
  npMinC (eigvals (fisherF S C))

/-- A minimal concrete design used to exercise the assembler: one parameter,
one initial time, one scalar initial state, no inputs, a single time point. -/
def dEx : Design :=
  { parameters := [1], ode_t0 := [0], ode_x0 := [[1]], inputs := [],
    timesShared := [0], timesPer := fun _ => [0], identicalTimes := true, nTimes := 1 }

/-- A concrete integrator output for the minimal design. -/
def solvEx : Solver := fun _ _ _ => [[1], [0]]

/-- A concrete design with two initial states and a two-valued input
dimension, used to exercise the combination enumeration. -/
def d2Ex : Design :=
  { parameters := [1], ode_t0 := [0], ode_x0 := [[1], [2]], inputs := [[3, 4]],
    timesShared := [0, 1], timesPer := fun _ => [0, 1], identicalTimes := true, nTimes := 2 }

example : npUnique [2, 1, 1] = ([1, 2], [2, 1]) := by decide
example : npRepeat [10, 20] [2, 1] = [10, 10, 20] := by decide
example : multiRange [2, 2] = [[0, 0], [0, 1], [1, 0], [1, 1]] := by decide
example : ode_rhs 0 [5, 7] (fun _ x _ _ _ => x) (fun _ _ _ _ _ => [[2]])
    (fun _ _ _ _ _ => [[3]]) [] [] [] 1 1 = [5, 17] := by
  norm_num [ode_rhs, matAdd, matMul, reshape2, List.range_succ]

/-! ### Helper lemmas about the list-level building blocks -/

lemma npRepeat_map_count (xs : List ℚ) (f : ℚ → ℕ) :
    npRepeat xs (xs.map f) = xs.flatMap (fun v => List.replicate (f v) v) := by
  unfold npRepeat List.flatMap
  congr 1
  rw [show xs.zip (xs.map f) = xs.map (fun a => (a, f a)) from by
    simpa using List.zip_map' (id : ℚ → ℚ) f xs]
  rw [List.map_map]
  rfl

lemma count_flatMap_replicate (u : List ℚ) (hu : u.Nodup) (f : ℚ → ℕ) (x : ℚ) :
    (u.flatMap (fun v => List.replicate (f v) v)).count x = if x ∈ u then f x else 0 := by
  induction u with
  | nil => simp
  | cons a l ih =>
    rw [List.flatMap_cons, List.count_append, ih hu.of_cons]
    rcases eq_or_ne x a with rfl | hne
    · have hxl : x ∉ l := (List.nodup_cons.mp hu).1
      simp [hxl, List.count_replicate]
    · simp only [List.count_replicate]
      have h1 : (a == x) = false := by simp [Ne.symm hne]
      simp [h1, hne, List.mem_cons]

lemma flatMap_replicate_perm (t u : List ℚ) (hu : u.Nodup) (hmem : ∀ x, x ∈ u ↔ x ∈ t) :
    List.Perm (u.flatMap (fun v => List.replicate (t.count v) v)) t := by
  rw [List.perm_iff_count]
  intro x
  rw [count_flatMap_replicate u hu]
  by_cases hx : x ∈ u
  · simp [hx]
  · have hxt : x ∉ t := fun h => hx ((hmem x).mpr h)
    simp [hx, List.count_eq_zero.mpr hxt]

lemma sorted_flatMap_replicate (u : List ℚ) (hu : u.Sorted (· ≤ ·)) (f : ℚ → ℕ) :
    (u.flatMap (fun v => List.replicate (f v) v)).Sorted (· ≤ ·) := by
  induction u with
  | nil => simp [List.Sorted]
  | cons a l ih =>
    rw [List.flatMap_cons]
    rw [List.Sorted, List.pairwise_append]
    refine ⟨?_, ih hu.of_cons, ?_⟩
    · rw [List.pairwise_replicate]
      exact Or.inr (le_refl a)
    · intro x hx y hy
      have hxa : x = a := List.eq_of_mem_replicate hx
      obtain ⟨v, hv, hyv⟩ := List.mem_flatMap.mp hy
      have hyv' : y = v := List.eq_of_mem_replicate hyv
      subst hxa; subst hyv'
      exact (List.sorted_cons.mp hu).1 y hv

lemma length_flatMap_const {α β : Type} (l : List α) (f : α → List β) (c : ℕ)
    (h : ∀ a ∈ l, (f a).length = c) : (l.flatMap f).length = l.length * c := by
  induction l with
  | nil => simp
  | cons a l ih =>
    rw [List.flatMap_cons, List.length_append, h a (List.mem_cons_self a l),
      ih (fun b hb => h b (List.mem_cons_of_mem a hb)), List.length_cons, Nat.succ_mul,
      Nat.add_comm]

lemma multiRange_length (ds : List ℕ) : (multiRange ds).length = ds.prod := by
  induction ds with
  | nil => simp [multiRange]
  | cons n rest ih =>
    have h : ∀ l : List ℕ, (l.flatMap (fun i => (multiRange rest).map (fun is => i :: is))).length
        = l.length * (multiRange rest).length := by
      intro l
      induction l with
      | nil => simp
      | cons a l ihl => simp [ihl, Nat.succ_mul]; ring
    simp [multiRange, h, ih]

lemma multiRange_mem (ds : List ℕ) (ks : List ℕ) :
    ks ∈ multiRange ds ↔ List.Forall₂ (fun k n => k < n) ks ds := by
  induction ds generalizing ks with
  | nil =>
    simp [multiRange, List.forall₂_nil_right_iff]
  | cons n rest ih =>
    simp only [multiRange, List.mem_flatMap, List.mem_map, List.mem_range,
      List.forall₂_cons_right_iff]
    constructor
    · rintro ⟨i, hi, is, his, rfl⟩
      exact ⟨i, is, hi, (ih is).mp his, rfl⟩
    · rintro ⟨i, is, hi, his, rfl⟩
      exact ⟨i, hi, is, (ih is).mpr his, rfl⟩

lemma multiRange_nodup (ds : List ℕ) : (multiRange ds).Nodup := by
  induction ds with
  | nil => simp [multiRange]
  | cons n rest ih =>
    rw [multiRange]
    apply List.nodup_flatMap.mpr
    refine ⟨fun i _ => ih.map (fun a b h => by simpa using h), ?_⟩
    have hpw : (List.range n).Pairwise (· ≠ ·) := List.nodup_range n
    apply hpw.imp
    intro i j hij
    rw [Function.onFun]
    intro x hx hy
    obtain ⟨a, _, rfl⟩ := List.mem_map.mp hx
    obtain ⟨b, _, hb⟩ := List.mem_map.mp hy
    have hji : j = i := by injection hb
    exact hij hji.symm

lemma combos_length (d : Design) :
    (combos d).length = N_x0 d * (n_t0 d * (inputsShape d).prod) := by
  unfold combos
  rw [length_flatMap_const _ _ (n_t0 d * (inputsShape d).prod), List.length_range]
  intro a _
  rw [length_flatMap_const _ _ (inputsShape d).prod, List.length_range]
  intro b _
  rw [List.length_map, multiRange_length]

lemma combos_mem (d : Design) (c : ℕ × ℕ × List ℕ) :
    c ∈ combos d ↔
      c.1 < N_x0 d ∧ c.2.1 < n_t0 d ∧
        List.Forall₂ (fun k n => k < n) c.2.2 (inputsShape d) := by
  obtain ⟨i, j, ks⟩ := c
  simp [combos, List.mem_flatMap, multiRange_mem, List.mem_range]
  constructor
  · rintro ⟨a, ha, b, hb, x, hx, h1, h2, h3⟩
    subst h1; subst h2; subst h3
    exact ⟨ha, hb, hx⟩
  · rintro ⟨hi, hj, hk⟩
    exact ⟨i, hi, j, hj, ks, hk, rfl, rfl, rfl⟩

lemma combos_nodup (d : Design) : (combos d).Nodup := by
  unfold combos
  apply List.nodup_flatMap.mpr
  constructor
  · intro i _
    apply List.nodup_flatMap.mpr
    constructor
    · intro j _
      exact (multiRange_nodup (inputsShape d)).map (fun a b h => by simpa using h)
    · apply (List.nodup_range (n_t0 d)).imp
      intro a b hab
      rw [Function.onFun]
      intro x hx hy
      obtain ⟨u, _, rfl⟩ := List.mem_map.mp hx
      obtain ⟨v, _, hv⟩ := List.mem_map.mp hy
      have hba : b = a := by
        have := congrArg (fun p => p.2.1) hv
        simpa using this
      exact hab hba.symm
  · apply (List.nodup_range (N_x0 d)).imp
    intro a b hab
    rw [Function.onFun]
    intro x hx hy
    obtain ⟨u, hu⟩ := List.mem_flatMap.mp hx
    obtain ⟨v, hv⟩ := List.mem_flatMap.mp hy
    obtain ⟨u2, _, rfl⟩ := List.mem_map.mp hu.2
    obtain ⟨v2, _, hv2⟩ := List.mem_map.mp hv.2
    have hba : b = a := by
      have := congrArg (fun p => p.1) hv2
      simpa using this
    exact hab hba.symm

lemma S_width_eq (d : Design) :
    S_width d = n_t0 d * (N_x0 d * (n_x0 d * ((inputsShape d).prod * d.nTimes))) := by
  simp [S_width, dims, List.prod_append]

lemma getD_drop_take {α : Type} (xs : List α) (a b j : ℕ) (hj : j < b) (d : α) :
    ((xs.drop a).take b).getD j d = xs.getD (a + j) d := by
  rw [List.getD_eq_getElem?_getD, List.getD_eq_getElem?_getD,
    List.getElem?_take_of_lt hj, List.getElem?_drop]

lemma length_flatten_const {α : Type} (L : List (List α)) (c : ℕ)
    (h : ∀ row ∈ L, row.length = c) : L.flatten.length = L.length * c := by
  induction L with
  | nil => simp
  | cons r L ih =>
    rw [List.flatten_cons, List.length_append, h r (List.mem_cons_self r L),
      ih (fun b hb => h b (List.mem_cons_of_mem r hb)), List.length_cons, Nat.succ_mul,
      Nat.add_comm]

lemma flatten_getD_const {α : Type} (L : List (List α)) (c : ℕ)
    (hL : ∀ row ∈ L, row.length = c) (i j : ℕ) (hi : i < L.length) (hj : j < c) (d : α) :
    L.flatten.getD (i * c + j) d = (L.getD i []).getD j d := by
  induction L generalizing i with
  | nil => simp at hi
  | cons r L ih =>
    have hr : r.length = c := hL r (List.mem_cons_self r L)
    cases i with
    | zero =>
      rw [List.flatten_cons, Nat.zero_mul, Nat.zero_add, List.getD_eq_getElem?_getD,
        List.getElem?_append_left (by omega), ← List.getD_eq_getElem?_getD]
      simp
    | succ i' =>
      rw [List.flatten_cons, List.getD_eq_getElem?_getD,
        show (i' + 1) * c + j = r.length + (i' * c + j) by rw [hr]; ring,
        List.getElem?_append_right (by omega)]
      have hsub : r.length + (i' * c + j) - r.length = i' * c + j := by omega
      rw [hsub, ← List.getD_eq_getElem?_getD,
        ih (fun b hb => hL b (List.mem_cons_of_mem r hb)) i' (by simpa using hi)]
      simp

lemma getD_zipWith {α : Type} (f : α → α → α) (A B : List α) (i : ℕ) (d dA dB : α)
    (hA : i < A.length) (hB : i < B.length) :
    (List.zipWith f A B).getD i d = f (A.getD i dA) (B.getD i dB) := by
  rw [List.getD_eq_getElem?_getD, List.getD_eq_getElem?_getD, List.getD_eq_getElem?_getD,
    List.getElem?_zipWith, List.getElem?_eq_getElem hA, List.getElem?_eq_getElem hB]
  simp

lemma getD_map_lt {α β : Type} (f : α → β) (l : List α) (i : ℕ) (hi : i < l.length)
    (d : β) (dA : α) : (l.map f).getD i d = f (l.getD i dA) := by
  rw [List.getD_eq_getElem?_getD, List.getElem?_map, List.getElem?_eq_getElem hi,
    List.getD_eq_getElem?_getD, List.getElem?_eq_getElem hi]
  simp

lemma getD_map_range {β : Type} (g : ℕ → β) (n i : ℕ) (hi : i < n) (d : β) :
    ((List.range n).map g).getD i d = g i := by
  rw [List.getD_eq_getElem?_getD, List.getElem?_map, List.getElem?_range hi]
  rfl

lemma ode_rhs_core (t : ℚ) (x inputs parameters ode_args : List ℚ)
    (f : OdeFun) (fx fp : OdeJac) (n_x n_p : ℕ)
    (hx : n_x + n_x * n_p ≤ x.length)
    (hf : (f t (x.take n_x) inputs parameters ode_args).length = n_x)
    (hfx : (fx t (x.take n_x) inputs parameters ode_args).length = n_x)
    (hfxr : ∀ row ∈ fx t (x.take n_x) inputs parameters ode_args, row.length = n_x)
    (hfp : (fp t (x.take n_x) inputs parameters ode_args).length = n_x)
    (hfpr : ∀ row ∈ fp t (x.take n_x) inputs parameters ode_args, row.length = n_p) :
    (ode_rhs t x f fx fp inputs parameters ode_args n_x n_p).length = n_x + n_x * n_p ∧
    (ode_rhs t x f fx fp inputs parameters ode_args n_x n_p).take n_x
      = f t (x.take n_x) inputs parameters ode_args ∧
    ∀ i j, i < n_x → j < n_p →
      (ode_rhs t x f fx fp inputs parameters ode_args n_x n_p).getD (n_x + (i * n_p + j)) 0
        = ((List.range n_x).map (fun k =>
            ((fx t (x.take n_x) inputs parameters ode_args).getD i []).getD k 0
              * x.getD (n_x + (k * n_p + j)) 0)).sum
          + ((fp t (x.take n_x) inputs parameters ode_args).getD i []).getD j 0 := by
  set xf := x.take n_x with hxf
  set dxf := f t xf inputs parameters ode_args with hdxf
  set dfdx := fx t xf inputs parameters ode_args with hdfdx
  set dfdp := fp t xf inputs parameters ode_args with hdfdp
  set sflat := (x.drop n_x).take (n_x * n_p) with hsflat
  have hsflen : sflat.length = n_x * n_p := by
    rw [hsflat]
    simp only [List.length_take, List.length_drop]
    omega
  set s := reshape2 n_x n_p sflat with hs
  have hslen : s.length = n_x := by simp [hs, reshape2]
  have hsrow : ∀ k < n_x, (s.getD k []).length = n_p := by
    intro k hk
    rw [hs, reshape2, getD_map_range _ n_x k hk []]
    simp only [List.length_take, List.length_drop, hsflen]
    have hle : k * n_p + n_p ≤ n_x * n_p := by
      calc k * n_p + n_p = (k + 1) * n_p := by rw [Nat.succ_mul]
      _ ≤ n_x * n_p := Nat.mul_le_mul_right n_p (by omega)
    omega
  set mm := matMul dfdx s with hmm
  have hmmlen : mm.length = n_x := by simp [hmm, matMul, hfx]
  have hcols : 0 < n_x → (s.headD []).length = n_p := by
    intro hpos
    have hh : s.headD [] = s.getD 0 [] := by
      cases s with
      | nil => rfl
      | cons a l => rfl
    rw [hh, hsrow 0 hpos]
  have hmmrow : 0 < n_x → ∀ row ∈ mm, row.length = n_p := by
    intro hpos row hrow
    rw [hmm, matMul] at hrow
    obtain ⟨r, _, rfl⟩ := List.mem_map.mp hrow
    rw [List.length_map, List.length_range, hcols hpos]
  set ds := matAdd mm dfdp with hds
  have hdslen : ds.length = n_x := by
    simp [hds, matAdd, hmmlen, hfp]
  have hdsrow : ∀ row ∈ ds, row.length = n_p := by
    intro row hrow
    rcases Nat.eq_zero_or_pos n_x with h0 | hpos
    · rw [hds, matAdd] at hrow
      have hmm0 : mm = [] := List.length_eq_zero.mp (by rw [hmmlen, h0])
      rw [hmm0] at hrow
      simp at hrow
    · rw [hds, matAdd] at hrow
      obtain ⟨i, hilen, hrw⟩ := List.getElem_of_mem hrow
      have hi1 : i < mm.length := by
        rw [List.length_zipWith] at hilen; omega
      have hi2 : i < dfdp.length := by
        rw [List.length_zipWith] at hilen; omega
      rw [← hrw, List.getElem_zipWith]
      rw [List.length_zipWith]
      rw [hmmrow hpos mm[i] (List.getElem_mem hi1),
        hfpr dfdp[i] (by rw [hdfdx] at *; exact List.getElem_mem hi2)]
      omega
  have hflatlen : ds.flatten.length = n_x * n_p := by
    rw [length_flatten_const ds n_p hdsrow, hdslen]
  refine ⟨?_, ?_, ?_⟩
  · show (dxf ++ ds.flatten).length = n_x + n_x * n_p
    rw [List.length_append, hf, hflatlen]
  · show (dxf ++ ds.flatten).take n_x = dxf
    rw [← hf, List.take_left]
  · intro i j hi hj
    show (dxf ++ ds.flatten).getD (n_x + (i * n_p + j)) 0 = _
    rw [List.getD_eq_getElem?_getD, List.getElem?_append_right (by rw [hf]; omega)]
    have hsub : n_x + (i * n_p + j) - dxf.length = i * n_p + j := by rw [hf]; omega
    rw [hsub, ← List.getD_eq_getElem?_getD,
      flatten_getD_const ds n_p hdsrow i j (by omega) hj]
    have hds_entry : (ds.getD i []).getD j 0
        = (mm.getD i []).getD j 0 + (dfdp.getD i []).getD j 0 := by
      rw [hds, matAdd, getD_zipWith _ mm dfdp i [] [] [] (by omega) (by rw [hfp]; omega)]
      rw [getD_zipWith _ _ _ j 0 0 0 ?_ ?_]
      · rw [hmmrow (by omega) (mm.getD i []) ?_]
        · omega
        · have hg : mm.getD i [] = mm[i] := by
            rw [List.getD_eq_getElem?_getD, List.getElem?_eq_getElem (by omega : i < mm.length)]
            rfl
          rw [hg]; exact List.getElem_mem _
      · rw [hfpr (dfdp.getD i []) ?_]
        · omega
        · have hi' : i < dfdp.length := by rw [hfp]; omega
          have hg : dfdp.getD i [] = dfdp[i] := by
            rw [List.getD_eq_getElem?_getD, List.getElem?_eq_getElem hi']
            rfl
          rw [hg]; exact List.getElem_mem _
    rw [hds_entry]
    congr 1
    rw [hmm, matMul, getD_map_lt _ dfdx i (by rw [hfx]; omega) [] []]
    rw [getD_map_range _ _ j (by rw [hcols (by omega)]; omega) 0]
    have hrlen : (dfdx.getD i []).length = n_x := by
      apply hfxr
      have hi' : i < dfdx.length := by rw [hfx]; omega
      have hg : dfdx.getD i [] = dfdx[i] := by
        rw [List.getD_eq_getElem?_getD, List.getElem?_eq_getElem hi']
        rfl
      rw [hg]; exact List.getElem_mem _
    rw [hrlen]
    apply congrArg List.sum
    apply List.map_congr_left
    intro k hk
    rw [List.mem_range] at hk
    congr 1
    rw [hs, reshape2, getD_map_range _ n_x k hk []]
    rw [getD_drop_take sflat (k * n_p) n_p j hj 0, hsflat,
      getD_drop_take x n_x (n_x * n_p) (k * n_p + j) ?_ 0]
    calc k * n_p + j < (k + 1) * n_p := by rw [Nat.succ_mul]; omega
    _ ≤ n_x * n_p := Nat.mul_le_mul_right n_p (by omega)

lemma trace_map_algebraMap {p : ℕ} (M : Matrix (Fin p) (Fin p) ℚ) :
    (M.map (algebraMap ℚ ℂ)).trace = algebraMap ℚ ℂ M.trace := by
  simp [Matrix.trace, Matrix.map_apply, Matrix.diag, map_sum]

lemma fisherF_perm {p m : ℕ} (S : Matrix (Fin p) (Fin m) ℚ) (σ : Equiv.Perm (Fin m)) :
    fisherF (S.submatrix id σ) 1 = fisherF S 1 := by
  ext i j
  simp only [fisherF, Matrix.mul_one, Matrix.mul_apply, Matrix.transpose_apply,
    Matrix.submatrix_apply, id_eq]
  exact Equiv.sum_comp σ (fun k => S i k * S j k)

/-! ### Claims -/

/-- Claim C2, counterexample: the dedupe/repeat round trip does not reproduce
an unsorted time vector, because `np.unique` returns its values sorted.  For
`t = [2, 1]` the re-expansion yields `[1, 2] ≠ [2, 1]`. -/
theorem dedup_roundtrip_counterexample :
    npRepeat (npUnique [2, 1]).1 (npUnique [2, 1]).2 ≠ ([2, 1] : List ℚ) := by
  decide

/-- Claim C2 (amended): for every non-decreasing time vector `t`,
deduplicating `t` into unique values with repeat counts and re-expanding by
repeating each unique value according to its count reproduces `t` exactly,
including order and multiplicity. -/
theorem dedup_roundtrip_sorted (t : List ℚ) (h : t.Sorted (· ≤ ·)) :
    npRepeat (npUnique t).1 (npUnique t).2 = t := by
  have hins : List.insertionSort (· ≤ ·) t = t := List.Sorted.insertionSort_eq h
  have h1 : (npUnique t).1 = t.dedup := by simp [npUnique, hins]
  have h2 : (npUnique t).2 = t.dedup.map (fun v => t.count v) := by simp [npUnique, hins]
  rw [h1, h2, npRepeat_map_count]
  have hnd : t.dedup.Nodup := t.nodup_dedup
  have hsor : t.dedup.Sorted (· ≤ ·) := h.sublist t.dedup_sublist
  exact List.eq_of_perm_of_sorted (flatMap_replicate_perm t t.dedup hnd (fun x => t.mem_dedup))
    (sorted_flatMap_replicate t.dedup hsor _) h

/-- Claim C2, witness: the round trip on the concrete sorted vector
`[1, 1, 2]` with a repeated time value. -/
theorem dedup_roundtrip_sorted_witness :
    ([1, 1, 2] : List ℚ).Sorted (· ≤ ·) ∧
      npRepeat (npUnique [1, 1, 2]).1 (npUnique [1, 1, 2]).2 = ([1, 1, 2] : List ℚ) :=
  ⟨by decide, dedup_roundtrip_sorted [1, 1, 2] (by decide)⟩

/-- Claim C4: for every design, the flattened sensitivity matrix returned by
the assembler has `n_p` rows, each of length
`n_t0 * N_x0 * n_x0 * (product of the input-dimension lengths) * n_times`. -/
theorem S_flat_shape (d : Design) (solver : Solver) (rel : Bool) :
    (S_flat d solver rel).length = n_p d ∧
    ∀ row ∈ S_flat d solver rel,
      row.length = n_t0 d * (N_x0 d * (n_x0 d * ((inputsShape d).prod * d.nTimes))) := by
  constructor
  · simp [S_flat]
  · intro row hrow
    obtain ⟨ip, _, rfl⟩ := List.mem_map.mp hrow
    rw [List.length_map, multiRange_length]
    have h := S_width_eq d
    rw [S_width] at h
    exact h

/-- Claim C4, witness: the shape property evaluated on the minimal concrete
design, whose flattened S matrix is `[[some 0]]`. -/
theorem S_flat_shape_witness :
    [some 0] ∈ S_flat dEx solvEx false ∧
      ([some (0 : ℚ)] : List FVal).length
        = n_t0 dEx * (N_x0 dEx * (n_x0 dEx * ((inputsShape dEx).prod * dEx.nTimes))) :=
  ⟨by decide, (S_flat_shape dEx solvEx false).2 [some 0] (by decide)⟩

/-- Claim C6: the assembler always returns the identity matrix of size equal
to the number of columns of the flattened S (equivalently `total_samples`),
and `calculate_fisher_criterion` forces the covariance matrix to that
identity whenever the covariance flag is false, whatever matrix the
assembler returned. -/
theorem covariance_identity (d : Design) (solver : Solver)
    (criterion : List (List FVal) → List (List ℚ) → ℚ) (rel : Bool)
    (w : ℕ) (C0 : List (List ℚ)) :
    (get_S_matrix d solver rel).2.1
        = npEye (n_t0 d * (N_x0 d * (n_x0 d * ((inputsShape d).prod * d.nTimes)))) ∧
    selectC false w C0 = npEye w ∧
    (calculate_fisher_criterion d solver criterion false rel).C
        = npEye (n_t0 d * (N_x0 d * (n_x0 d * ((inputsShape d).prod * d.nTimes)))) := by
  refine ⟨?_, rfl, ?_⟩
  · show getC d = _
    rw [getC, S_width_eq]
  · show selectC false (S_width d) (get_S_matrix d solver rel).2.1 = _
    rw [selectC, S_width_eq]
    simp

/-- Claim C9: the loop enumerates the full Cartesian product of
(initial-state index, initial-time index, input index tuple): the written
slice addresses are pairwise distinct, every in-range address is written,
only in-range addresses are written, and exactly one solution record is
appended per combination, so the solutions list has length
`N_x0 * n_t0 * (product of the input-dimension lengths)`. -/
theorem combos_enumeration (d : Design) (solver : Solver) :
    (writeAddrs d).Nodup ∧
    (∀ i_t0 i_x0 ks, i_t0 < n_t0 d → i_x0 < N_x0 d →
      List.Forall₂ (fun k n => k < n) ks (inputsShape d) →
      (i_t0, i_x0, ks) ∈ writeAddrs d) ∧
    (∀ a ∈ writeAddrs d, a.1 < n_t0 d ∧ a.2.1 < N_x0 d ∧
      List.Forall₂ (fun k n => k < n) a.2.2 (inputsShape d)) ∧
    (getSolutions d solver).length = N_x0 d * (n_t0 d * (inputsShape d).prod) := by
  have hinj : Function.Injective
      (fun c : ℕ × ℕ × List ℕ => (c.2.1, c.1, c.2.2)) := by
    rintro ⟨a, b, c⟩ ⟨a', b', c'⟩ h
    simp only [Prod.mk.injEq] at h
    obtain ⟨h1, h2, h3⟩ := h
    subst h1; subst h2; subst h3
    rfl
  refine ⟨(combos_nodup d).map hinj, ?_, ?_, ?_⟩
  · intro i_t0 i_x0 ks h1 h2 h3
    exact List.mem_map.mpr ⟨(i_x0, i_t0, ks), (combos_mem d _).mpr ⟨h2, h1, h3⟩, rfl⟩
  · intro a ha
    obtain ⟨c, hc, rfl⟩ := List.mem_map.mp ha
    obtain ⟨h1, h2, h3⟩ := (combos_mem d c).mp hc
    exact ⟨h2, h1, h3⟩
  · rw [getSolutions, List.length_map, combos_length]

/-- Claim C9, witness: on the concrete two-state, two-input design, the
address `(0, 1, [1])` is written by the enumeration. -/
theorem combos_enumeration_witness :
    (0 < n_t0 d2Ex ∧ 1 < N_x0 d2Ex ∧
      List.Forall₂ (fun k n => k < n) [1] (inputsShape d2Ex)) ∧
    (0, 1, [1]) ∈ writeAddrs d2Ex :=
  ⟨⟨by decide, by decide, List.forall₂_cons.mpr ⟨by decide, List.Forall₂.nil⟩⟩,
    (combos_enumeration d2Ex solvEx).2.1 0 1 [1] (by decide) (by decide)
      (List.forall₂_cons.mpr ⟨by decide, List.Forall₂.nil⟩)⟩

/-- Claim C1: for every flattened augmented state vector of length
`n_x + n_x * n_p`, `ode_rhs` returns a vector of that same length whose first
`n_x` entries are exactly the output of the user's `f` at the state block,
and whose entry at position `n_x + i * n_p + j` is the row-major entry
`(i, j)` of `(df/dx) · s + df/dp`, where `s` is the row-major reshape of the
sensitivity block, i.e. `s k j = x (n_x + k * n_p + j)`.  Being a pure
function of its arguments, the embedding has no side effects. -/
theorem ode_rhs_spec (t : ℚ) (x inputs parameters ode_args : List ℚ)
    (f : OdeFun) (fx fp : OdeJac) (n_x n_p : ℕ)
    (hx : x.length = n_x + n_x * n_p)
    (hf : (f t (x.take n_x) inputs parameters ode_args).length = n_x)
    (hfx : (fx t (x.take n_x) inputs parameters ode_args).length = n_x)
    (hfxr : ∀ row ∈ fx t (x.take n_x) inputs parameters ode_args, row.length = n_x)
    (hfp : (fp t (x.take n_x) inputs parameters ode_args).length = n_x)
    (hfpr : ∀ row ∈ fp t (x.take n_x) inputs parameters ode_args, row.length = n_p) :
    (ode_rhs t x f fx fp inputs parameters ode_args n_x n_p).length = n_x + n_x * n_p ∧
    (ode_rhs t x f fx fp inputs parameters ode_args n_x n_p).take n_x
      = f t (x.take n_x) inputs parameters ode_args ∧
    ∀ i j, i < n_x → j < n_p →
      (ode_rhs t x f fx fp inputs parameters ode_args n_x n_p).getD (n_x + (i * n_p + j)) 0
        = ((List.range n_x).map (fun k =>
            ((fx t (x.take n_x) inputs parameters ode_args).getD i []).getD k 0
              * x.getD (n_x + (k * n_p + j)) 0)).sum
          + ((fp t (x.take n_x) inputs parameters ode_args).getD i []).getD j 0 :=
  ode_rhs_core t x inputs parameters ode_args f fx fp n_x n_p (le_of_eq hx.symm)
    hf hfx hfxr hfp hfpr

/-- Claim C1, witness: the characterization evaluated at the concrete
augmented state `[5, 7]` with `n_x = n_p = 1`, `f = id`, `df/dx = [[2]]`,
`df/dp = [[3]]`. -/
theorem ode_rhs_spec_witness :
    (([5, 7] : List ℚ).length = 1 + 1 * 1) ∧
    ((ode_rhs 0 [5, 7] (fun _ y _ _ _ => y) (fun _ _ _ _ _ => [[2]])
        (fun _ _ _ _ _ => [[3]]) [] [] [] 1 1).length = 1 + 1 * 1 ∧
      (ode_rhs 0 [5, 7] (fun _ y _ _ _ => y) (fun _ _ _ _ _ => [[2]])
        (fun _ _ _ _ _ => [[3]]) [] [] [] 1 1).take 1
        = ((fun _ y _ _ _ => y) : OdeFun) (0 : ℚ) (([5, 7] : List ℚ).take 1) [] [] [] ∧
      ∀ i j, i < 1 → j < 1 →
        (ode_rhs 0 [5, 7] (fun _ y _ _ _ => y) (fun _ _ _ _ _ => [[2]])
          (fun _ _ _ _ _ => [[3]]) [] [] [] 1 1).getD (1 + (i * 1 + j)) 0
          = ((List.range 1).map (fun k =>
              ((((fun _ _ _ _ _ => [[2]]) : OdeJac) (0 : ℚ) (([5, 7] : List ℚ).take 1)
                  [] [] []).getD i []).getD k 0
                * ([5, 7] : List ℚ).getD (1 + (k * 1 + j)) 0)).sum
            + ((((fun _ _ _ _ _ => [[3]]) : OdeJac) (0 : ℚ) (([5, 7] : List ℚ).take 1)
                [] [] []).getD i []).getD j 0) :=
  ⟨rfl, ode_rhs_spec 0 [5, 7] [] [] [] (fun _ y _ _ _ => y) (fun _ _ _ _ _ => [[2]])
    (fun _ _ _ _ _ => [[3]]) 1 1 rfl rfl rfl (by decide) rfl (by decide)⟩

/-- Claim C10: for every input vector longer than `n_x + n_x * n_p`,
`ode_rhs` does not fail: the trailing entries (the discarded third block of
`np.split`) do not influence the result, which coincides with the value on
the truncated vector and still has length `n_x + n_x * n_p`. -/
theorem ode_rhs_overlong (t : ℚ) (x inputs parameters ode_args : List ℚ)
    (f : OdeFun) (fx fp : OdeJac) (n_x n_p : ℕ)
    (hlong : n_x + n_x * n_p < x.length)
    (hf : (f t (x.take n_x) inputs parameters ode_args).length = n_x)
    (hfx : (fx t (x.take n_x) inputs parameters ode_args).length = n_x)
    (hfxr : ∀ row ∈ fx t (x.take n_x) inputs parameters ode_args, row.length = n_x)
    (hfp : (fp t (x.take n_x) inputs parameters ode_args).length = n_x)
    (hfpr : ∀ row ∈ fp t (x.take n_x) inputs parameters ode_args, row.length = n_p) :
    ode_rhs t x f fx fp inputs parameters ode_args n_x n_p
      = ode_rhs t (x.take (n_x + n_x * n_p)) f fx fp inputs parameters ode_args n_x n_p ∧
    (ode_rhs t x f fx fp inputs parameters ode_args n_x n_p).length = n_x + n_x * n_p := by
  have h1 : (x.take (n_x + n_x * n_p)).take n_x = x.take n_x := by
    rw [List.take_take]
    congr 1
    omega
  have h2 : ((x.take (n_x + n_x * n_p)).drop n_x).take (n_x * n_p)
      = (x.drop n_x).take (n_x * n_p) := by
    rw [List.drop_take]
    rw [show n_x + n_x * n_p - n_x = n_x * n_p by omega]
    rw [List.take_take]
    congr 1
    omega
  constructor
  · simp only [ode_rhs]
    rw [h1, h2]
  · exact (ode_rhs_core t x inputs parameters ode_args f fx fp n_x n_p (le_of_lt hlong)
      hf hfx hfxr hfp hfpr).1

/-- Claim C10, witness: the over-long augmented state `[5, 7, 9]` with
`n_x = n_p = 1` gives the same result as its truncation `[5, 7]`, of
length 2. -/
theorem ode_rhs_overlong_witness :
    (1 + 1 * 1 < ([5, 7, 9] : List ℚ).length) ∧
    (ode_rhs 0 [5, 7, 9] (fun _ y _ _ _ => y) (fun _ _ _ _ _ => [[2]])
        (fun _ _ _ _ _ => [[3]]) [] [] [] 1 1
      = ode_rhs 0 (([5, 7, 9] : List ℚ).take (1 + 1 * 1)) (fun _ y _ _ _ => y)
        (fun _ _ _ _ _ => [[2]]) (fun _ _ _ _ _ => [[3]]) [] [] [] 1 1 ∧
     (ode_rhs 0 [5, 7, 9] (fun _ y _ _ _ => y) (fun _ _ _ _ _ => [[2]])
        (fun _ _ _ _ _ => [[3]]) [] [] [] 1 1).length = 1 + 1 * 1) :=
  ⟨by decide, ode_rhs_overlong 0 [5, 7, 9] [] [] [] (fun _ y _ _ _ => y)
    (fun _ _ _ _ _ => [[2]]) (fun _ _ _ _ _ => [[3]]) 1 1 (by decide) rfl rfl
    (by decide) rfl (by decide)⟩

/-- Claim C3, counterexample: when the reduced time vector contains only the
initial time and relative sensitivities are requested, the integrator output
IS read: with an observable trajectory value of `0` the written block entry
is the non-finite `none` (numpy `nan`), not a zero, while an observable value
of `1` gives `some 0`.  So the block is neither always all zeros nor
independent of the integrator output in the relative case. -/
theorem degenerate_block_counterexample :
    combBlock 1 1 [1] 0 [0] [[0]] true 0 0 0 = none ∧
    combBlock 1 1 [1] 0 [0] [[1]] true 0 0 0 = some 0 := by
  constructor
  · norm_num [combBlock, npUnique, npRepeat, fdiv, fmul]
  · norm_num [combBlock, npUnique, npRepeat, fdiv, fmul]

/-- Claim C3 (amended): for every combination whose reduced time vector
contains only the initial time, the absolute sensitivity block is all zeros
and does not depend on the integrator output; with relative sensitivities
the zero block is still divided by the time-expanded observable trajectory
read from the integrator output, yielding zero wherever that trajectory
value is nonzero and a non-finite value where it is zero.  In all cases the
degenerate design is a defined result, not an error. -/
theorem degenerate_block_spec (nx npar : ℕ) (parameters : List ℚ) (t0 : ℚ)
    (t : List ℚ) (resy resy' : List (List ℚ))
    (hdeg : ((npUnique t).1.all (fun v => v == t0)) = true) :
    (∀ ip ix j, combBlock nx npar parameters t0 t resy false ip ix j = some 0) ∧
    combBlock nx npar parameters t0 t resy false
      = combBlock nx npar parameters t0 t resy' false ∧
    (∀ ip ix j, combBlock nx npar parameters t0 t resy true ip ix j =
      if (npRepeat (resy.getD ix []) (npUnique t).2).getD j 0 = 0 then none
      else some 0) := by
  refine ⟨?_, ?_, ?_⟩
  · intro ip ix j
    simp [combBlock, hdeg]
  · simp [combBlock, hdeg]
  · intro ip ix j
    simp only [combBlock, hdeg, if_true, fmul, fdiv]
    split
    · rfl
    · simp

/-- Claim C3, witness: the amended statement evaluated on a concrete
degenerate combination (`t = [0, 0]`, `t0 = 0`) with two different
integrator outputs. -/
theorem degenerate_block_spec_witness :
    ((npUnique [0, 0]).1.all (fun v => v == (0 : ℚ))) = true ∧
    ((∀ ip ix j, combBlock 1 1 [2] 0 [0, 0] [[1], [0]] false ip ix j = some 0) ∧
      combBlock 1 1 [2] 0 [0, 0] [[1], [0]] false
        = combBlock 1 1 [2] 0 [0, 0] [[5], [7]] false ∧
      (∀ ip ix j, combBlock 1 1 [2] 0 [0, 0] [[1], [0]] true ip ix j =
        if (npRepeat (([[1], [0]] : List (List ℚ)).getD ix []) (npUnique [0, 0]).2).getD j 0 = 0
          then none else some 0)) :=
  ⟨by decide, degenerate_block_spec 1 1 [2] 0 [0, 0] [[1], [0]] [[5], [7]] (by decide)⟩

/-- Claim C5: in every non-degenerate combination with relative
sensitivities, the block entry for parameter `ip`, state dimension `ix` and
time index `j` is the raw sensitivity `dy_ix/dp_ip` (taken from row
`n_x0 + ix * n_p + ip` of the integrator output, column-repeated by the time
multiplicities) multiplied by the parameter value and divided by the
time-expanded observable trajectory value; the division is unguarded, so a
zero observable yields the non-finite `none` (numpy `inf`/`nan`) rather than
being masked. -/
theorem relative_block_spec (nx npar : ℕ) (parameters : List ℚ) (t0 : ℚ)
    (t : List ℚ) (resy : List (List ℚ))
    (hnondeg : ((npUnique t).1.all (fun v => v == t0)) = false) (ip ix j : ℕ) :
    combBlock nx npar parameters t0 t resy true ip ix j =
      if (npRepeat (resy.getD ix []) (npUnique t).2).getD j 0 = 0 then none
      else some ((npRepeat (resy.getD (nx + ix * npar + ip) []) (npUnique t).2).getD j 0
        * parameters.getD ip 0
        / (npRepeat (resy.getD ix []) (npUnique t).2).getD j 0) := by
  simp only [combBlock, hnondeg, Bool.false_eq_true, if_false, if_true, fmul, fdiv]
  by_cases ho : (npRepeat (resy.getD ix []) (npUnique t).2).getD j 0 = 0
  · simp [ho]
  · simp [ho]

/-- Claim C5, witness: the relative-sensitivity formula evaluated on a
concrete non-degenerate combination with `t = [0, 1]`. -/
theorem relative_block_spec_witness :
    ((npUnique [0, 1]).1.all (fun v => v == (0 : ℚ))) = false ∧
    combBlock 1 1 [2] 0 [0, 1] [[3, 5], [4, 6]] true 0 0 1 =
      (if (npRepeat (([[3, 5], [4, 6]] : List (List ℚ)).getD 0 []) (npUnique [0, 1]).2).getD 1 0 = 0
        then none
        else some ((npRepeat (([[3, 5], [4, 6]] : List (List ℚ)).getD (1 + 0 * 1 + 0) [])
            (npUnique [0, 1]).2).getD 1 0
          * ([2] : List ℚ).getD 0 0
          / (npRepeat (([[3, 5], [4, 6]] : List (List ℚ)).getD 0 []) (npUnique [0, 1]).2).getD 1 0)) :=
  ⟨by decide, relative_block_spec 1 1 [2] 0 [0, 1] [[3, 5], [4, 6]] (by decide) 0 0 1⟩

/-- Claim C7: the A-optimality criterion returns the sum of the eigenvalues
of `F = S · C · Sᵀ` (the roots of the characteristic polynomial over `ℂ`,
with multiplicity), and this sum equals the trace of `F`. -/
theorem sumeigenval_eq_trace {p m : ℕ} (S : Matrix (Fin p) (Fin m) ℚ)
    (C : Matrix (Fin m) (Fin m) ℚ) :
    fisher_sumeigenval S C = (eigvals (fisherF S C)).sum ∧
    fisher_sumeigenval S C = algebraMap ℚ ℂ (fisherF S C).trace := by
  refine ⟨rfl, ?_⟩
  rw [fisher_sumeigenval, eigvals, ← Matrix.trace_eq_sum_roots_charpoly,
    trace_map_algebraMap]

/-- Claim C8: with identity covariance, permuting the columns of `S` leaves
each of the D-, A- and E-optimality criteria unchanged, because
`F = S · C · Sᵀ` depends only on the multiset of columns of `S` when `C` is
the identity. -/
theorem criteria_perm_invariant {p m : ℕ} (S : Matrix (Fin p) (Fin m) ℚ)
    (σ : Equiv.Perm (Fin m)) :
    fisher_determinant (S.submatrix id σ) 1 = fisher_determinant S 1 ∧
    fisher_sumeigenval (S.submatrix id σ) 1 = fisher_sumeigenval S 1 ∧
    fisher_mineigenval (S.submatrix id σ) 1 = fisher_mineigenval S 1 := by
  refine ⟨?_, ?_, ?_⟩
  · rw [fisher_determinant, fisher_determinant, fisherF_perm]
  · rw [fisher_sumeigenval, fisher_sumeigenval, fisherF_perm]
  · rw [fisher_mineigenval, fisher_mineigenval, fisherF_perm]

end FisInMa
